import Mathlib

/-!
Verification of the gitifyhg remote-helper core (`gitifyhg/gitifyhg.py`)
against its natural-language specification.

The development shallow-embeds the protocol parser (`GitRemoteParser`)
and the remote session command handlers (`HGRemote.do_capabilities`,
`HGRemote.do_list`, `HGRemote.process`) as executable Lean functions.
Standard input is modelled as a list of characters; the Mercurial
repository consulted by `do_list` is modelled as a record of the values
the handler queries (current bookmark, current branch, emptiness flags,
and the enumerations of bookmarks, branches and tags).
-/

/-- Python's `str.strip()` on a list of characters: drop whitespace from
both ends. -/
def stripChars (l : List Char) : List Char :=
  ((l.dropWhile Char.isWhitespace).reverse.dropWhile Char.isWhitespace).reverse

/-- Python's `str.strip()` for strings. -/
def strip (s : String) : String := ⟨stripChars s.data⟩

/-- `sys.stdin.readline()` on a character stream: the characters up to the
first newline (the newline itself is consumed and dropped; the parser
strips every line immediately, so dropping the terminator is
behaviour-preserving), together with the remaining stream. -/
def readlineRaw : List Char → List Char × List Char
  | [] => ([], [])
  | c :: cs =>
      if c = '\n' then ([], cs)
      else
        let r := readlineRaw cs
        (c :: r.1, r.2)

/-- Python's `str.startswith`. -/
def startswith (s pre : String) : Bool := pre.data.isPrefixOf s.data

/-- Decimal value of a digit string, as Python's `int` computes it on a
string of digits. -/
def natFromDigits (l : List Char) : Nat :=
  l.foldl (fun n c => 10 * n + (c.toNat - 48)) 0

/-- Python's `int` on a string expected to hold only digits: defined
exactly when the string is a non-empty digit string. -/
def natFromDigits? (l : List Char) : Option Nat :=
  if l ≠ [] ∧ l.all Char.isDigit then some (natFromDigits l) else none

/-- State of `GitRemoteParser`: the pushed-back-lines queue `peek_stack`,
the current line `self.line`, and the characters remaining on standard
input. -/
structure GitRemoteParser where
  peek_stack : List String
  line : String
  stdin : List Char
deriving DecidableEq, Repr

/-- `GitRemoteParser.read_line`: pop the front of `peek_stack` if it is
non-empty, otherwise read and strip one line from standard input; the
result becomes `self.line` and is returned. -/
def read_line (p : GitRemoteParser) : String × GitRemoteParser :=
  match p.peek_stack with
  | l :: rest => (l, { p with peek_stack := rest, line := l })
  | [] =>
      let r := readlineRaw p.stdin
      let l := strip ⟨r.1⟩
      (l, { peek_stack := [], line := l, stdin := r.2 })

/-- `GitRemoteParser.peek`: read and strip one line from standard input
and append it to the back of `peek_stack` so that `read_line` can still
return it. -/
def peek (p : GitRemoteParser) : String × GitRemoteParser :=
  let r := readlineRaw p.stdin
  let l := strip ⟨r.1⟩
  (l, { p with peek_stack := p.peek_stack ++ [l], stdin := r.2 })

/-- Python's `line.partition(' ')[-1]`: everything after the first space
(empty when there is no space). -/
def afterFirstSpace : List Char → List Char
  | [] => []
  | c :: cs => if c = ' ' then cs else afterFirstSpace cs

/-- `GitRemoteParser.read_data`: consume one line; if it does not start
with `data` return `none` (the consumed line stays in `self.line`),
otherwise read from standard input as many raw characters as the number
after the first space of the header says. -/
def read_data (p : GitRemoteParser) : Option String × GitRemoteParser :=
  let p1 := (read_line p).2
  if startswith p1.line "data" then
    let size := (natFromDigits? (afterFirstSpace p1.line.data)).getD 0
    (some ⟨p1.stdin.take size⟩, { p1 with stdin := p1.stdin.drop size })
  else (none, p1)

/-- `GitRemoteParser.read_block(sentinel)`, with the generator reified as
the list of yielded lines: yield `self.line` and advance with `read_line`
until `self.line` equals the sentinel.  The Python loop diverges when the
sentinel never appears, so the Lean function carries fuel; every theorem
below supplies enough fuel to reach the sentinel. -/
def read_block (fuel : Nat) (sentinel : String) (p : GitRemoteParser) :
    List String × GitRemoteParser :=
  if p.line = sentinel then ([], p)
  else
    match fuel with
    | 0 => ([], p)
    | f + 1 =>
        let p1 := (read_line p).2
        let r := read_block f sentinel p1
        (p.line :: r.1, r.2)

/-- Iterate `read_line` `n` times, collecting the returned lines. -/
def readLines : Nat → GitRemoteParser → List String × GitRemoteParser
  | 0, p => ([], p)
  | n + 1, p =>
      let (l, p1) := read_line p
      let r := readLines n p1
      (l :: r.1, r.2)

/-- Iterate `peek` `k` times, collecting the returned lines. -/
def peeks : Nat → GitRemoteParser → List String × GitRemoteParser
  | 0, p => ([], p)
  | k + 1, p =>
      let (l, p1) := peek p
      let r := peeks k p1
      (l :: r.1, r.2)

/-- The stripped lines a character stream will produce, accumulator form:
`acc` holds the (reversed) characters of the line being assembled. -/
def splitLinesAux (acc : List Char) : List Char → List String
  | [] => if acc.isEmpty then [] else [strip ⟨acc.reverse⟩]
  | c :: cs =>
      if c = '\n' then strip ⟨acc.reverse⟩ :: splitLinesAux [] cs
      else splitLinesAux (c :: acc) cs

/-- The stripped lines remaining on a character stream. -/
def linesFromChars (cs : List Char) : List String := splitLinesAux [] cs

/-- The lines future `read_line` calls will return (while input lasts):
first the pushed-back queue, then the lines still on standard input. -/
def futureLines (p : GitRemoteParser) : List String :=
  p.peek_stack ++ linesFromChars p.stdin

/-- The current line followed by the lines future `read_line` calls will
return. -/
def upcoming (p : GitRemoteParser) : List String := p.line :: futureLines p

/-- The timezone conversion on line 98 of `read_author`, on the integer
value of the `±HHMM` field:
`tz = -((int(tz) / 100) * 3600) + ((int(tz) % 100) * 60)`.
Python 2 integer `/` and `%` are floor division and floor modulus, hence
`Int.fdiv` and `Int.fmod`. -/
def convertTz (t : Int) : Int :=
  -((Int.fdiv t 100) * 3600) + (Int.fmod t 100) * 60

/-- Split a character list at the first occurrence of `c`: the part
before it and the part after it (`none` when `c` does not occur). -/
def splitAtFirst (c : Char) : List Char → Option (List Char × List Char)
  | [] => none
  | x :: xs =>
      if x = c then some ([], xs)
      else (splitAtFirst c xs).map (fun r => (x :: r.1, r.2))

/-- The `author|committer|tagger` keyword alternation of the regular
expression in `read_author`: strip the matched keyword. -/
def matchKeyword (l : List Char) : Option (List Char) :=
  if List.isPrefixOf "author".data l then some (l.drop 6)
  else if List.isPrefixOf "committer".data l then some (l.drop 9)
  else if List.isPrefixOf "tagger".data l then some (l.drop 6)
  else none

/-- The regular expression of `read_author`,
`^(?:author|committer|tagger)(?: ([^<>]+)?)? <([^<>]*)> (\d+) ([+-]\d+)`,
as a structural parser: returns the optional name group, the email
group, the decimal date group and the signed integer value of the
timezone group.  After the keyword the text up to the first `<` must be
a space, or a space, a non-empty `<>`-free name and a space; the email
runs to the first `>` and is `<>`-free; then a space, the digits of the
date, a space, a mandatory sign and the digits of the timezone (the
pattern is unanchored on the right, so trailing text is ignored). -/
def parseAuthorLine (line : String) : Option (Option String × String × Nat × Int) :=
  match matchKeyword line.data with
  | none => none
  | some r =>
    match splitAtFirst '<' r with
    | none => none
    | some (before, rest1) =>
      if before.head? = some ' ' ∧ before.getLast? = some ' ' ∧ ¬ before.contains '>' then
        let name : Option String :=
          if before.length ≤ 2 then none else some ⟨(before.drop 1).dropLast⟩
        match splitAtFirst '>' rest1 with
        | none => none
        | some (email, rest2) =>
          if email.contains '<' then none
          else
            match rest2 with
            | ' ' :: rest3 =>
              let dateDigits := rest3.takeWhile Char.isDigit
              let rest4 := rest3.dropWhile Char.isDigit
              if dateDigits = [] then none
              else
                match rest4 with
                | ' ' :: sign :: rest5 =>
                  let tzDigits := rest5.takeWhile Char.isDigit
                  if (sign = '+' ∨ sign = '-') ∧ tzDigits ≠ [] then
                    let tzVal : Int :=
                      if sign = '-' then -(natFromDigits tzDigits : Int)
                      else (natFromDigits tzDigits : Int)
                    some (name, ⟨email⟩, natFromDigits dateDigits, tzVal)
                  else none
                | _ => none
            | _ => none
      else none

/-- `GitRemoteParser.read_author`: consume one line; if it matches the
author regular expression return `(user string, date, converted
timezone)`, where a missing name group defaults to the empty string
before ` <email>` is appended; otherwise return `none`. -/
def read_author (p : GitRemoteParser) : Option (String × Nat × Int) × GitRemoteParser :=
  let q := (read_line p).2
  match parseAuthorLine q.line with
  | none => (none, q)
  | some (name, email, date, tzInt) =>
      (some ((name.getD "") ++ " <" ++ email ++ ">", date, convertTz tzInt), q)

/-- Python's `str.split()` (split on whitespace runs, no empty tokens),
accumulator form. -/
def splitWsAux (acc : List Char) : List Char → List String
  | [] => if acc.isEmpty then [] else [⟨acc.reverse⟩]
  | c :: cs =>
      if c.isWhitespace then
        if acc.isEmpty then splitWsAux [] cs
        else (⟨acc.reverse⟩ : String) :: splitWsAux [] cs
      else splitWsAux (c :: acc) cs

/-- The first whitespace-separated token of a line, `line.split()[0]`
(`none` when the line has no token; lines yielded by the parser are
stripped, so every non-empty such line has one). -/
def firstToken (line : String) : Option String :=
  (splitWsAux [] line.data).head?

/-- The four recognized remote-helper commands. -/
def commandNames : List String := ["capabilities", "list", "import", "export"]

/-- The dispatch loop of `HGRemote.process` over the stripped lines the
parser yields: iterate until the empty-line sentinel (or end of input);
for each line take its first token; dispatch it if it is one of the four
commands (recording it in order), otherwise `die` with
`unhandled command: <line>` — modelled as a fatal `Except.error`
carrying `die`'s message. -/
def processLines : List String → Except String (List String)
  | [] => .ok []
  | line :: rest =>
      if line = "" then .ok []
      else
        match firstToken line with
        | none => .error ("unhandled command: " ++ line)
        | some cmd =>
            if commandNames.contains cmd then
              (processLines rest).map (fun ls => cmd :: ls)
            else .error ("unhandled command: " ++ line)

/-- `HGRemote.do_capabilities`, as the list of lines it outputs, in
order.  `pfx` is `self.prefix` (`refs/hg/<alias>`), `marksGitPath` is
`self.marks_git_path`, and `marksGitExists` tells whether a marks file
already exists at that path (`self.marks_git_path.exists()`).  A
parameterless `output()` prints an empty line. -/
def do_capabilities (pfx marksGitPath : String) (marksGitExists : Bool) : List String :=
  ["import",
   "export",
   "refspec refs/heads/branches/*:" ++ pfx ++ "/branches/*",
   "refspec refs/heads/*:" ++ pfx ++ "/bookmarks/*",
   "refspec refs/tags/*:" ++ pfx ++ "/tags/*"]
  ++ (if marksGitExists then ["*import-marks " ++ marksGitPath] else [])
  ++ ["*export-marks " ++ marksGitPath, ""]

/-- Modelled from the spec: `hg_to_git_spaces` (imported from the util
module, which is not part of the sources under verification) substitutes
each space of a Mercurial name by a reversible placeholder sequence so
the name is legal in a Git ref; the placeholder is taken to be `___`. -/
def escChars : List Char → List Char
  | [] => []
  | c :: cs =>
      if c = ' ' then '_' :: '_' :: '_' :: escChars cs
      else c :: escChars cs

/-- Modelled from the spec: string form of the space-escaping transform
applied to branch, bookmark and tag names before they are placed in Git
refs. -/
def hg_to_git_spaces (s : String) : String := ⟨escChars s.data⟩

/-- The repository facts `HGRemote.do_list` queries from the Mercurial
repository object. -/
structure RepoState where
  /-- `readcurrent(self.repo)`: the currently checked-out bookmark, if
  any. -/
  currentBookmark : Option String
  /-- `self.repo.dirstate.branch()`. -/
  currentBranch : String
  /-- Whether `self.repo['.']` is the null context (`not node`). -/
  dotIsNull : Bool
  /-- `'default' in self.repo`. -/
  hasDefault : Bool
  /-- `listbookmarks(self.repo)` as (name, node) pairs in iteration
  order. -/
  bookmarkEntries : List (String × String)
  /-- For each branch of `self.repo.branchmap()` in iteration order, the
  heads `self.repo.branchheads(branch, closed=True)` returns. -/
  branchmapEntries : List (String × List String)
  /-- `self.repo.tagslist()` as (name, node) pairs in order. -/
  tagEntries : List (String × String)
deriving DecidableEq, Repr

/-- The head-resolution logic at the top of `do_list`: the current
bookmark if one is checked out; otherwise the current branch — with
`default` renamed to `master` — provided the working copy is not at the
null revision or a `default` branch exists; otherwise no head (the
handler outputs a blank line and returns). -/
def resolveHead (repo : RepoState) : Option String :=
  match repo.currentBookmark with
  | some bm => some bm
  | none =>
      if repo.dotIsNull ∧ ¬ repo.hasDefault then none
      else some (if repo.currentBranch = "default" then "master" else repo.currentBranch)

/-- The branch names `do_list` retains: branches of the branchmap whose
`branchheads(branch, closed=True)` list is non-empty. -/
def branchNames (repo : RepoState) : List String :=
  (repo.branchmapEntries.filter (fun e => ¬ e.2.isEmpty)).map (fun e => e.1)

/-- The named-branch loop of `do_list`: one line per branch, with the
`default` branch rendered as the synthetic `? refs/heads/master` line. -/
def branchLines : List String → List String
  | [] => []
  | b :: bs =>
      (if b ≠ "default" then "? refs/heads/branches/" ++ hg_to_git_spaces b
       else "? refs/heads/master") :: branchLines bs

/-- The bookmark loop of `do_list`: one line per bookmark, skipping a
bookmark literally named `master`. -/
def bookmarkLines : List String → List String
  | [] => []
  | b :: bs =>
      if b ≠ "master" then ("? refs/heads/" ++ hg_to_git_spaces b) :: bookmarkLines bs
      else bookmarkLines bs

/-- The tag loop of `do_list`: one line per tag, skipping the `tip`
sentinel tag. -/
def tagLines : List String → List String
  | [] => []
  | t :: ts =>
      if t ≠ "tip" then ("? refs/tags/" ++ hg_to_git_spaces t) :: tagLines ts
      else tagLines ts

/-- `HGRemote.do_list`, as the list of lines it outputs: resolve the
head (outputting only a blank line when resolution fails), then the
`@<ref> HEAD` line, the named-branch lines, the bookmark lines, the tag
lines and a terminating blank line. -/
def do_list (repo : RepoState) : List String :=
  match resolveHead repo with
  | none => [""]
  | some hd =>
      ("@refs/heads/" ++ hd ++ " HEAD")
        :: (branchLines (branchNames repo)
            ++ bookmarkLines (repo.bookmarkEntries.map (fun e => e.1))
            ++ tagLines (repo.tagEntries.map (fun e => e.1))
            ++ [""])

/-! ### Helper lemmas about the line stream -/

theorem read_line_sets_line (p : GitRemoteParser) :
    ((read_line p).2).line = (read_line p).1 := by
  unfold read_line
  cases p.peek_stack <;> simp

theorem linesFromChars_nil : linesFromChars [] = [] := rfl

theorem splitLinesAux_readlineRaw :
    ∀ (cs acc : List Char), acc ≠ [] ∨ cs ≠ [] →
      splitLinesAux acc cs =
        strip ⟨acc.reverse ++ (readlineRaw cs).1⟩ :: linesFromChars (readlineRaw cs).2 := by
  intro cs
  induction cs with
  | nil =>
      intro acc h
      have hacc : acc ≠ [] := by
        rcases h with h | h
        · exact h
        · exact absurd rfl h
      simp [splitLinesAux, readlineRaw, linesFromChars, hacc]
  | cons c cs ih =>
      intro acc _
      by_cases hc : c = '\n'
      · simp [splitLinesAux, readlineRaw, hc, linesFromChars]
      · have := ih (c :: acc) (Or.inl (by simp))
        simp only [splitLinesAux, readlineRaw, hc, if_neg, ite_false]
        simp only [this, List.reverse_cons]
        simp

theorem linesFromChars_cons (cs : List Char) (h : cs ≠ []) :
    linesFromChars cs =
      strip ⟨(readlineRaw cs).1⟩ :: linesFromChars (readlineRaw cs).2 := by
  have := splitLinesAux_readlineRaw cs [] (Or.inr h)
  simpa [linesFromChars] using this

/-- One step of `read_line`, seen through the upcoming-lines view: when
the future lines are `l :: rest`, `read_line` returns `l`, makes it the
current line, and leaves `rest` as the future lines. -/
theorem read_line_step (p : GitRemoteParser) (l : String) (rest : List String)
    (h : futureLines p = l :: rest) :
    (read_line p).1 = l ∧ ((read_line p).2).line = l ∧
      futureLines (read_line p).2 = rest := by
  rcases hp : p.peek_stack with _ | ⟨s, ss⟩
  · have hstdin : p.stdin ≠ [] := by
      intro hnil
      rw [futureLines, hp, hnil, linesFromChars_nil] at h
      simp at h
    rw [futureLines, hp, linesFromChars_cons p.stdin hstdin] at h
    simp only [List.nil_append, List.cons.injEq] at h
    refine ⟨?_, ?_, ?_⟩ <;>
      simp [read_line, hp, futureLines, h.1, h.2]
  · rw [futureLines, hp] at h
    simp only [List.cons_append, List.cons.injEq] at h
    refine ⟨?_, ?_, ?_⟩ <;>
      simp [read_line, hp, futureLines, h.1, h.2]

/-- Draining the pushed-back queue: as long as `n` does not exceed the
queue length, `n` calls of `read_line` return the first `n` queued
lines, consume nothing from standard input, and leave the rest of the
queue. -/
theorem readLines_stack :
    ∀ (n : Nat) (p : GitRemoteParser), n ≤ p.peek_stack.length →
      (readLines n p).1 = p.peek_stack.take n ∧
      ((readLines n p).2).stdin = p.stdin ∧
      ((readLines n p).2).peek_stack = p.peek_stack.drop n := by
  intro n
  induction n with
  | zero => intro p _; simp [readLines]
  | succ n ih =>
      intro p h
      rcases hp : p.peek_stack with _ | ⟨s, ss⟩
      · rw [hp] at h; simp at h
      · have hss : n ≤ ss.length := by
          rw [hp] at h; simpa using h
        have step : read_line p = (s, { p with peek_stack := ss, line := s }) := by
          simp [read_line, hp]
        have := ih { p with peek_stack := ss, line := s } (by simpa using hss)
        simp only [readLines, step, hp]
        simp_all

/-- `k` consecutive `peek` calls return `k` lines and append exactly
those lines, in order, to the back of the pushed-back queue; the current
line is untouched. -/
theorem peeks_stack :
    ∀ (k : Nat) (p : GitRemoteParser),
      (peeks k p).1.length = k ∧
      ((peeks k p).2).peek_stack = p.peek_stack ++ (peeks k p).1 ∧
      ((peeks k p).2).line = p.line := by
  intro k
  induction k with
  | zero => intro p; simp [peeks]
  | succ k ih =>
      intro p
      simp only [peeks]
      have hpk : (peek p).2.peek_stack = p.peek_stack ++ [(peek p).1] := by
        simp [peek]
      have hln : (peek p).2.line = p.line := by
        simp [peek]
      have := ih (peek p).2
      refine ⟨by simp [this.1], ?_, ?_⟩
      · simp [this.2.1, hpk]
      · simp [this.2.2, hln]

/-! ### Helper lemmas about strings and the space-escaping transform -/

theorem escChars_of_no_space : ∀ (l : List Char), ' ' ∉ l → escChars l = l := by
  intro l
  induction l with
  | nil => intro _; rfl
  | cons c cs ih =>
      intro h
      have hc : c ≠ ' ' := by
        intro hc; exact h (by simp [hc])
      have hcs : ' ' ∉ cs := fun hm => h (List.mem_cons_of_mem _ hm)
      simp [escChars, hc, ih hcs]

theorem underscore_mem_escChars : ∀ (l : List Char), ' ' ∈ l → '_' ∈ escChars l := by
  intro l
  induction l with
  | nil => intro h; simp at h
  | cons c cs ih =>
      intro h
      by_cases hc : c = ' '
      · simp [escChars, hc]
      · rcases List.mem_cons.mp h with h1 | h1
        · exact absurd h1.symm hc
        · simp [escChars, hc, ih h1]

/-- Escaping only touches spaces, so the only name the escaping maps to
`default` is `default` itself. -/
theorem esc_eq_default (b : String) (h : hg_to_git_spaces b = "default") :
    b = "default" := by
  have hdata : escChars b.data = "default".data := congrArg String.data h
  by_cases hs : ' ' ∈ b.data
  · have := underscore_mem_escChars b.data hs
    rw [hdata] at this
    simp at this
  · have := escChars_of_no_space b.data hs
    rw [this] at hdata
    exact String.ext hdata

theorem string_append_left_cancel {a b c : String} (h : a ++ b = a ++ c) : b = c := by
  have := congrArg String.data h
  rw [String.data_append, String.data_append] at this
  exact String.ext (List.append_cancel_left this)

/-! ### Helper lemmas about the list-command loops -/

theorem bookmarkLines_eq_filter (l : List String) :
    bookmarkLines l =
      (l.filter (fun b => b != "master")).map
        (fun b => "? refs/heads/" ++ hg_to_git_spaces b) := by
  induction l with
  | nil => rfl
  | cons b bs ih =>
      by_cases hb : b = "master"
      · simp [bookmarkLines, hb, ih, List.filter]
      · have hb2 : (b != "master") = true := by simp [hb]
        simp [bookmarkLines, hb, ih, List.filter_cons, hb2]

theorem tagLines_eq_filter (l : List String) :
    tagLines l =
      (l.filter (fun t => t != "tip")).map
        (fun t => "? refs/tags/" ++ hg_to_git_spaces t) := by
  induction l with
  | nil => rfl
  | cons t ts ih =>
      by_cases ht : t = "tip"
      · simp [tagLines, ht, ih, List.filter]
      · have ht2 : (t != "tip") = true := by simp [ht]
        simp [tagLines, ht, ih, List.filter_cons, ht2]

theorem mem_branchLines (l : List String) (x : String) (hx : x ∈ branchLines l) :
    ∃ b ∈ l, x = if b ≠ "default" then "? refs/heads/branches/" ++ hg_to_git_spaces b
                 else "? refs/heads/master" := by
  induction l with
  | nil => simp [branchLines] at hx
  | cons b bs ih =>
      rcases List.mem_cons.mp hx with h1 | h1
      · exact ⟨b, by simp, h1⟩
      · rcases ih h1 with ⟨b', hb', hx'⟩
        exact ⟨b', by simp [hb'], hx'⟩

/-! ### The claims -/

/-- Claim C1: the spec says `read_author` turns a Git `±HHMM` timezone
field into `-((HH * 3600) + (MM * 60))` seconds, negating the sum of the
hour and minute parts.  The code negates only the hour part: on the
field `+0530` (in an author line `author Foo <f@b> 1000 +0530`) it
returns `-(5 * 3600) + 30 * 60 = -16200`, not the
`-((5 * 3600) + (30 * 60)) = -19800` the claim requires. -/
theorem read_author_tz_divergence :
    (read_author { peek_stack := [], line := "",
                   stdin := "author Foo <f@b> 1000 +0530\n".data }).1
      = some ("Foo <f@b>", 1000, -16200)
    ∧ (-16200 : Int) ≠ -((5 * 3600 : Int) + 30 * 60) := by
  exact ⟨rfl, by decide⟩

/-- Claim C2: `do_capabilities` emits, in order, `import`, `export`, the
three refspec lines (branches, bookmarks, tags), an
`*import-marks <path>` line exactly when a marks file already exists at
the session's marks-git path, an unconditional `*export-marks <path>`
line, and a final blank line. -/
theorem capabilities_spec (pfx marksGitPath : String) (marksGitExists : Bool) :
    do_capabilities pfx marksGitPath marksGitExists =
      ["import",
       "export",
       "refspec refs/heads/branches/*:" ++ pfx ++ "/branches/*",
       "refspec refs/heads/*:" ++ pfx ++ "/bookmarks/*",
       "refspec refs/tags/*:" ++ pfx ++ "/tags/*"]
      ++ (if marksGitExists then ["*import-marks " ++ marksGitPath] else [])
      ++ ["*export-marks " ++ marksGitPath, ""]
    ∧ (("*import-marks " ++ marksGitPath) ∈ do_capabilities pfx marksGitPath marksGitExists
        ↔ marksGitExists = true) := by
  refine ⟨rfl, ?_, ?_⟩
  · intro h
    cases marksGitExists with
    | true => rfl
    | false =>
        exfalso
        simp only [do_capabilities, Bool.false_eq_true, if_false, List.nil_append,
          List.cons_append, List.append_nil, List.mem_cons, List.not_mem_nil,
          or_false] at h
        rcases h with h | h | h | h | h | h | h <;>
          · have h2 := congrArg String.data h
            simp [String.data_append] at h2
  · intro h
    subst h
    simp [do_capabilities]

/-- Claim C3: on a repository with no revisions at all — no current
bookmark, a null working-copy revision and no `default` branch — the
list command emits exactly one blank line: no `@ HEAD` line and no `?`
ref lines. -/
theorem list_empty_repo (repo : RepoState) (h1 : repo.currentBookmark = none)
    (h2 : repo.dotIsNull = true) (h3 : repo.hasDefault = false) :
    do_list repo = [""] := by
  simp [do_list, resolveHead, h1, h2, h3]

/-- Concrete instance of `list_empty_repo` on an entirely empty
repository. -/
theorem list_empty_repo_witness :
    do_list { currentBookmark := none, currentBranch := "default",
              dotIsNull := true, hasDefault := false, bookmarkEntries := [],
              branchmapEntries := [], tagEntries := [] } = [""] :=
  list_empty_repo _ rfl rfl rfl

theorem master_mem_branchLines (l : List String) (h : "default" ∈ l) :
    "? refs/heads/master" ∈ branchLines l := by
  induction l with
  | nil => simp at h
  | cons b bs ih =>
      rcases List.mem_cons.mp h with h1 | h1
      · rw [← h1]
        simp [branchLines]
      · rcases List.mem_cons.mp h with _ | _
        all_goals simp [branchLines]
        all_goals exact Or.inr (ih h1)

/-- Claim C4: on a non-empty repository whose current branch is
`default` and which has no checked-out bookmark, the list command
publishes `master` and never `default`: the HEAD line names
`refs/heads/master`, and the `default` named branch yields the synthetic
`? refs/heads/master` line, never a `? refs/heads/branches/default`
line. -/
theorem list_default_branch_master (repo : RepoState)
    (h1 : repo.currentBookmark = none)
    (h2 : repo.currentBranch = "default")
    (h3 : repo.dotIsNull = false ∨ repo.hasDefault = true)
    (h4 : "default" ∈ branchNames repo) :
    (do_list repo).head? = some "@refs/heads/master HEAD"
    ∧ "? refs/heads/master" ∈ branchLines (branchNames repo)
    ∧ "? refs/heads/branches/default" ∉ branchLines (branchNames repo) := by
  have hres : resolveHead repo = some "master" := by
    rcases h3 with h3 | h3 <;> simp [resolveHead, h1, h2, h3]
  refine ⟨?_, master_mem_branchLines _ h4, ?_⟩
  · simp [do_list, hres]
  · intro hx
    rcases mem_branchLines _ _ hx with ⟨b, _, hform⟩
    by_cases hb : b = "default"
    · rw [if_neg (by simp [hb])] at hform
      exact absurd hform (by decide)
    · rw [if_pos hb] at hform
      have hform2 : "? refs/heads/branches/" ++ ("default" : String) =
          "? refs/heads/branches/" ++ hg_to_git_spaces b := hform
      have := string_append_left_cancel hform2
      exact hb (esc_eq_default b this.symm)

/-- Claim C9: on any repository where head resolution succeeds, the list
response consists of the HEAD line, the named-branch lines, one
`? refs/heads/<b>` line per bookmark except a bookmark literally named
`master`, one `? refs/tags/<t>` line per tag except the `tip` sentinel
tag (names space-escaped), and the terminating blank line. -/
theorem list_suppression (repo : RepoState) (hd : String)
    (hres : resolveHead repo = some hd) :
    do_list repo =
      ("@refs/heads/" ++ hd ++ " HEAD")
        :: (branchLines (branchNames repo)
            ++ ((repo.bookmarkEntries.map (fun e => e.1)).filter
                  (fun b => b != "master")).map
                 (fun b => "? refs/heads/" ++ hg_to_git_spaces b)
            ++ ((repo.tagEntries.map (fun e => e.1)).filter
                  (fun t => t != "tip")).map
                 (fun t => "? refs/tags/" ++ hg_to_git_spaces t)
            ++ [""]) := by
  simp [do_list, hres, bookmarkLines_eq_filter, tagLines_eq_filter]

/-- Claim C5: every dispatch-loop line whose first token is not one of
the four commands fails fatally with the offending line in the message
and is not dispatched; every line whose first token is one of the four
is dispatched to its handler. -/
theorem process_dispatch (line : String) (rest : List String) (tok : String)
    (hne : line ≠ "") (htok : firstToken line = some tok) :
    (tok ∉ commandNames →
       processLines (line :: rest) =
         Except.error ("unhandled command: " ++ line))
    ∧ (tok ∈ commandNames →
       processLines (line :: rest) =
         (processLines rest).map (fun ls => tok :: ls)) := by
  constructor
  · intro hmem
    cases hc : commandNames.contains tok with
    | false =>
        simp only [processLines, if_neg hne, htok]
        rw [hc]
        simp
    | true =>
        exact absurd (by simpa using hc) hmem
  · intro hmem
    have hc : commandNames.contains tok = true := by simpa using hmem
    simp only [processLines, if_neg hne, htok]
    rw [hc]
    simp

/-- Claim C6: `read_data` first consumes one line; when that line does
not start with `data` it returns `none` and the consumed line stays
available as the parser's current line; when the line is a data header
`data <N>` it returns exactly the next `N` raw characters of the
underlying input (and leaves the input positioned after them). -/
theorem read_data_spec (p : GitRemoteParser) (m : String) (n : Nat) :
    (startswith (read_line p).1 "data" = false →
        read_data p = (none, (read_line p).2)
        ∧ ((read_line p).2).line = (read_line p).1)
    ∧ ((read_line p).1 = "data " ++ m → natFromDigits? m.data = some n →
        (read_data p).1 = some ⟨((read_line p).2).stdin.take n⟩
        ∧ ((read_data p).2).stdin = ((read_line p).2).stdin.drop n) := by
  have hline := read_line_sets_line p
  constructor
  · intro hns
    rw [read_data, hline, hns]
    exact ⟨by simp, rfl⟩
  · intro hdr hn
    have hsw : startswith ((read_line p).2).line "data" = true := by
      rw [hline, hdr, startswith, String.data_append]
      simp [List.isPrefixOf]
    have hafter : afterFirstSpace (((read_line p).2).line).data = m.data := by
      rw [hline, hdr, String.data_append]
      simp [afterFirstSpace]
    rw [read_data]
    rw [hsw]
    simp [hafter, hn]

/-- Claim C7: reading a block with sentinel `s` yields exactly the lines
from the parser's current line up to but excluding the first occurrence
of `s`, and afterwards the parser's current line is the sentinel. -/
theorem read_block_spec (s : String) (fuel : Nat) (p : GitRemoteParser)
    (hmem : s ∈ upcoming p) (hfuel : (upcoming p).length ≤ fuel) :
    (read_block fuel s p).1 = (upcoming p).takeWhile (fun l => l != s)
    ∧ ((read_block fuel s p).2).line = s := by
  induction fuel generalizing p with
  | zero => simp [upcoming] at hfuel
  | succ f ih =>
      by_cases hl : p.line = s
      · constructor
        · rw [read_block, if_pos hl, upcoming]
          have : (p.line != s) = false := by simp [hl]
          simp [List.takeWhile_cons, this]
        · rw [read_block, if_pos hl]
          exact hl
      · have hfut : s ∈ futureLines p := by
          rcases List.mem_cons.mp (by simpa [upcoming] using hmem) with h1 | h1
          · exact absurd h1.symm hl
          · exact h1
        obtain ⟨l, rest, hlr⟩ : ∃ l rest, futureLines p = l :: rest := by
          cases hfl : futureLines p with
          | nil => rw [hfl] at hfut; simp at hfut
          | cons a as => exact ⟨a, as, rfl⟩
        obtain ⟨hret, hline2, hfut2⟩ := read_line_step p l rest hlr
        have hstep : read_block (f + 1) s p =
            (p.line :: (read_block f s (read_line p).2).1,
             (read_block f s (read_line p).2).2) := by
          rw [read_block, if_neg hl]
        have hup1 : upcoming (read_line p).2 = futureLines p := by
          rw [upcoming, hline2, hfut2, hlr]
        have hmem1 : s ∈ upcoming (read_line p).2 := by rw [hup1]; exact hfut
        have hfuel1 : (upcoming (read_line p).2).length ≤ f := by
          rw [hup1]
          have : (upcoming p).length = (futureLines p).length + 1 := by
            simp [upcoming]
          omega
        obtain ⟨ih1, ih2⟩ := ih (read_line p).2 hmem1 hfuel1
        constructor
        · rw [hstep]
          rw [upcoming, List.takeWhile_cons]
          have hne2 : (p.line != s) = true := by simp [hl]
          rw [hne2]
          simp only [ih1, hup1]
          simp
        · rw [hstep]
          exact ih2

/-- Claim C8: a peeked line is never skipped: after `peek` returns `L`,
the next `peek_stack`-length-plus-one `read_line` calls return the
queued lines followed by `L` while consuming nothing from the underlying
input, and (while input remains) peeking does not change the sequence of
lines `read_line` will return. -/
theorem peek_transparent (p : GitRemoteParser) :
    (readLines (p.peek_stack.length + 1) (peek p).2).1
        = p.peek_stack ++ [(peek p).1]
    ∧ ((readLines (p.peek_stack.length + 1) (peek p).2).2).stdin
        = ((peek p).2).stdin
    ∧ (p.stdin ≠ [] → futureLines (peek p).2 = futureLines p) := by
  have hstk : ((peek p).2).peek_stack = p.peek_stack ++ [(peek p).1] := by
    simp [peek]
  have hlen : p.peek_stack.length + 1 = ((peek p).2).peek_stack.length := by
    simp [hstk]
  obtain ⟨r1, r2, _⟩ :=
    readLines_stack (p.peek_stack.length + 1) ((peek p).2) (le_of_eq hlen)
  refine ⟨?_, r2, ?_⟩
  · rw [r1, hstk]
    exact List.take_of_length_le (by simp)
  · intro hne
    rw [futureLines, futureLines, hstk]
    have hpk1 : (peek p).1 = strip ⟨(readlineRaw p.stdin).1⟩ := by simp [peek]
    have hpk2 : ((peek p).2).stdin = (readlineRaw p.stdin).2 := by simp [peek]
    rw [hpk1, hpk2, linesFromChars_cons p.stdin hne]
    simp

/-- Claim C10: the lookahead buffer is a FIFO queue: starting from an
empty buffer, `k` consecutive `peek` calls return `k` lines, and the
next `k` `read_line` calls return exactly those lines in the same order,
consuming nothing from the underlying input and emptying the buffer, so
each peeked line is returned exactly once. -/
theorem peek_fifo (k : Nat) (p : GitRemoteParser) (h : p.peek_stack = []) :
    (peeks k p).1.length = k
    ∧ (readLines k ((peeks k p).2)).1 = (peeks k p).1
    ∧ ((readLines k ((peeks k p).2)).2).stdin = ((peeks k p).2).stdin
    ∧ ((readLines k ((peeks k p).2)).2).peek_stack = [] := by
  obtain ⟨hlen, hstk, _⟩ := peeks_stack k p
  rw [h, List.nil_append] at hstk
  have hle : k ≤ ((peeks k p).2).peek_stack.length := by
    rw [hstk, hlen]
  obtain ⟨r1, r2, r3⟩ := readLines_stack k ((peeks k p).2) hle
  refine ⟨hlen, ?_, r2, ?_⟩
  · rw [r1, hstk]
    exact List.take_of_length_le (le_of_eq hlen)
  · rw [r3, hstk]
    exact List.drop_eq_nil_of_le (le_of_eq hlen)

/-! ### Concrete witnesses -/

/-- Sample repository for the default-branch renaming claim. -/
def repoC4 : RepoState :=
  { currentBookmark := none, currentBranch := "default", dotIsNull := false,
    hasDefault := true, bookmarkEntries := [],
    branchmapEntries := [("default", ["h1"]), ("dev", ["h2"])],
    tagEntries := [] }

/-- Concrete instance of `list_default_branch_master`. -/
theorem list_default_branch_master_witness :
    (do_list repoC4).head? = some "@refs/heads/master HEAD"
    ∧ "? refs/heads/master" ∈ branchLines (branchNames repoC4)
    ∧ "? refs/heads/branches/default" ∉ branchLines (branchNames repoC4) :=
  list_default_branch_master repoC4 rfl rfl (Or.inl rfl) (by decide)

/-- Concrete instance of `process_dispatch`: an unrecognized command
fails fatally with the offending line, and a recognized one is
dispatched. -/
theorem process_dispatch_witness :
    processLines ["frobnicate now"] =
      Except.error "unhandled command: frobnicate now"
    ∧ processLines ["list heads", "frobnicate now"] =
      Except.error "unhandled command: frobnicate now" := by
  have h1 := (process_dispatch "frobnicate now" [] "frobnicate"
    (by decide) (by decide)).1 (by decide)
  have h2 := (process_dispatch "list heads" ["frobnicate now"] "list"
    (by decide) (by decide)).2 (by decide)
  refine ⟨h1, h2.trans ?_⟩
  rw [h1]
  rfl

/-- Sample parser states for the data-block claim. -/
def pC6a : GitRemoteParser := { peek_stack := [], line := "", stdin := "hello\nrest".data }

/-- Parser whose input starts with a `data 3` header. -/
def pC6b : GitRemoteParser := { peek_stack := [], line := "", stdin := "data 3\nabcdef".data }

/-- Concrete instance of `read_data_spec` on both a non-header line and
a genuine `data 3` header. -/
theorem read_data_spec_witness :
    (read_data pC6a = (none, (read_line pC6a).2)
      ∧ ((read_line pC6a).2).line = "hello")
    ∧ (read_data pC6b).1 = some "abc"
    ∧ ((read_data pC6b).2).stdin = "def".data := by
  have h1 := (read_data_spec pC6a "" 0).1 (by decide)
  have h2 := (read_data_spec pC6b "3" 3).2 (by decide) (by decide)
  exact ⟨⟨h1.1, h1.2.trans (by decide)⟩,
         h2.1.trans (by decide), h2.2.trans (by decide)⟩

/-- Sample parser state for the block-reading claim. -/
def pC7 : GitRemoteParser := { peek_stack := ["b"], line := "a", stdin := "c\ndone\nxyz".data }

/-- Concrete instance of `read_block_spec`: the yielded lines stop just
before the sentinel and the parser is left on the sentinel. -/
theorem read_block_spec_witness :
    (read_block 10 "done" pC7).1 = ["a", "b", "c"]
    ∧ ((read_block 10 "done" pC7).2).line = "done" := by
  have h := read_block_spec "done" 10 pC7 (by decide) (by decide)
  exact ⟨h.1.trans (by decide), h.2⟩

/-- Sample parser state for the peek-transparency claim. -/
def pC8 : GitRemoteParser := { peek_stack := ["q"], line := "x", stdin := "a\nb\n".data }

/-- Concrete instance of `peek_transparent`: the peeked line is returned
by `read_line` right after the queued line, with no input consumed, and
the future line sequence is unchanged. -/
theorem peek_transparent_witness :
    (readLines 2 (peek pC8).2).1 = ["q", "a"]
    ∧ ((readLines 2 (peek pC8).2).2).stdin = ((peek pC8).2).stdin
    ∧ futureLines (peek pC8).2 = futureLines pC8 := by
  have h := peek_transparent pC8
  exact ⟨h.1.trans (by decide), h.2.1, h.2.2 (by decide)⟩

/-- Sample repository for the suppression claim. -/
def repoC9 : RepoState :=
  { currentBookmark := some "bm", currentBranch := "default", dotIsNull := false,
    hasDefault := true,
    bookmarkEntries := [("master", "n1"), ("feat ure", "n2")],
    branchmapEntries := [("default", ["h"]), ("closed", [])],
    tagEntries := [("tip", "n3"), ("v1", "n4")] }

/-- Concrete instance of `list_suppression`: the `master` bookmark and
the `tip` tag are suppressed, other names are emitted space-escaped. -/
theorem list_suppression_witness :
    do_list repoC9 =
      ["@refs/heads/bm HEAD", "? refs/heads/master",
       "? refs/heads/feat___ure", "? refs/tags/v1", ""] := by
  have h := list_suppression repoC9 "bm" (by decide)
  exact h.trans (by decide)

/-- Sample parser state for the FIFO claim. -/
def pC10 : GitRemoteParser := { peek_stack := [], line := "x", stdin := "a\nb\nc\n".data }

/-- Concrete instance of `peek_fifo` with two consecutive peeks. -/
theorem peek_fifo_witness :
    (peeks 2 pC10).1.length = 2
    ∧ (readLines 2 ((peeks 2 pC10).2)).1 = (peeks 2 pC10).1
    ∧ ((readLines 2 ((peeks 2 pC10).2)).2).stdin = ((peeks 2 pC10).2).stdin
    ∧ ((readLines 2 ((peeks 2 pC10).2)).2).peek_stack = [] :=
  peek_fifo 2 pC10 rfl
